import Mathlib

/-!
Shallow embedding of `spelling_corrector.py`: a spelling corrector with two
interchangeable candidate-generation strategies (Peter Norvig's
generate-and-filter strategy and the symmetric-delete strategy).

Modelling conventions:
* Python strings are `List Char` (`Word`); the frequency table
  (`word_2_frequency`, a Python dict) is an association list
  `List (Word × Nat)` looked up with `List.lookup` (first match wins, as for
  dict keys, which are unique).
* Python sets are modelled as lists with set (membership) semantics;
  `set(...)` comprehensions become `List.filter` / concatenation.  Truthiness
  of a set/list is non-emptiness.
* `max(xs, key=f)` returns the first element of maximal key; it is modelled by
  `maxByFreq`, which returns `none` exactly when Python's `max` raises
  `ValueError` on an empty sequence.
* The deletion index is a `defaultdict(set)`, modelled as an association list
  `List (Word × List Word)`.  Python's `d[k]` on a `defaultdict` *inserts* an
  empty bucket when `k` is missing; `ddGet` models exactly that, returning the
  bucket together with the possibly-grown dictionary (new keys are appended,
  matching dict insertion order).
-/

abbrev Word := List Char

abbrev FreqTable := List (Word × Nat)

abbrev DeletionIndex := List (Word × List Word)

/-- `string.ascii_lowercase`. -/
def asciiLowercase : List Char := (List.range 26).map (fun i => Char.ofNat (97 + i))

/-- `string.digits`. -/
def digitChars : List Char := (List.range 10).map (fun i => Char.ofNat (48 + i))

/-- Whether an ASCII code is alphanumeric (digit or letter). -/
def isAsciiAlnumNat (n : Nat) : Bool :=
  (48 ≤ n && n ≤ 57) || (65 ≤ n && n ≤ 90) || (97 ≤ n && n ≤ 122)

/-- `string.punctuation`: the printable ASCII characters (codes 33-126) that
are not alphanumeric, in ascending code order, matching the Python constant. -/
def punctuationChars : List Char :=
  (((List.range 94).map (fun i => Char.ofNat (33 + i))).filter
    (fun c => !(isAsciiAlnumNat c.toNat)))

/-- `AbstractSpellingCorrector._CHARACTERS = ascii_lowercase + digits + punctuation + " "`. -/
def CHARACTERS : List Char := asciiLowercase ++ digitChars ++ punctuationChars ++ [' ']

/-- The split pairs `[(token[:i], token[i:]) for i in range(len(token) + 1)]`. -/
def splits (t : Word) : List (Word × Word) :=
  (List.range (t.length + 1)).map (fun i => (t.take i, t.drop i))

/-- `deleted_distances`: `left + right[1:]` for every split with `right` non-empty. -/
def deletedDistances (t : Word) : List Word :=
  (splits t).filterMap (fun p =>
    match p.2 with
    | [] => none
    | _ :: rest => some (p.1 ++ rest))

/-- `inserted_variations`: `left + c + right` for every split and every `c` in
`_CHARACTERS`. -/
def insertedVariations (t : Word) : List Word :=
  (splits t).flatMap (fun p => CHARACTERS.map (fun c => p.1 ++ c :: p.2))

/-- `replaced_variations`: `left + c + right[1:]` for every split with `right`
non-empty and every `c` in `_CHARACTERS`. -/
def replacedVariations (t : Word) : List Word :=
  (splits t).flatMap (fun p =>
    match p.2 with
    | [] => []
    | _ :: rest => CHARACTERS.map (fun c => p.1 ++ c :: rest))

/-- `transposed_variations`: `left + right[1] + right[0] + right[2:]` for every
split with `len(right) > 1`. -/
def transposedVariations (t : Word) : List Word :=
  (splits t).filterMap (fun p =>
    match p.2 with
    | a :: b :: rest => some (p.1 ++ b :: a :: rest)
    | _ => none)

/-- `NorvigCorrector._one_edit_token_distances`: the chain of insertions,
deletions, replacements and transpositions, in the source's chain order. -/
def oneEditTokenDistances (t : Word) : List Word :=
  insertedVariations t ++ deletedDistances t ++ replacedVariations t ++ transposedVariations t

/-- `NorvigCorrector._two_edits_token_distances`: one-edit distances of every
one-edit distance. -/
def twoEditsTokenDistances (t : Word) : List Word :=
  (oneEditTokenDistances t).flatMap oneEditTokenDistances

/-- `AbstractSpellingCorrector._frequency_of`: `word_2_frequency.get(token)`,
with a falsy result (missing key, or a stored 0) mapped to 0. -/
def frequencyOf (tbl : FreqTable) (t : Word) : Nat :=
  match List.lookup t tbl with
  | none => 0
  | some v => if v = 0 then 0 else v

/-- The truthiness test `word_2_frequency.get(word)` used by `_known_in`. -/
def isKnown (tbl : FreqTable) (w : Word) : Bool :=
  match List.lookup w tbl with
  | none => false
  | some v => !(v = 0)

/-- `AbstractSpellingCorrector._known_in`: the subset of `words` whose lookup
is truthy (a Python set, modelled as a filtered list). -/
def knownIn (tbl : FreqTable) (ws : List Word) : List Word :=
  ws.filter (fun w => isKnown tbl w)

/-- The scan of Python's `max`: keep the current best, replacing it only when
a strictly larger key appears (so the first maximum wins). -/
def maxFrom (tbl : FreqTable) : Word → List Word → Word
  | best, [] => best
  | best, x :: rest =>
    if frequencyOf tbl best < frequencyOf tbl x then maxFrom tbl x rest
    else maxFrom tbl best rest

/-- `max(candidates, key=self._frequency_of)`: first element of maximal
frequency; `none` when the sequence is empty (Python raises `ValueError`). -/
def maxByFreq (tbl : FreqTable) : List Word → Option Word
  | [] => none
  | w :: ws => some (maxFrom tbl w ws)

/-- `NorvigCorrector._candidates`: the `or` cascade over distance 0, 1, 2 and
the literal-token fallback. -/
def norvigCandidates (tbl : FreqTable) (t : Word) : List Word :=
  let tokenAsList : List Word := [t]
  let k0 := knownIn tbl tokenAsList
  if k0 ≠ [] then k0
  else
    let k1 := knownIn tbl (oneEditTokenDistances t)
    if k1 ≠ [] then k1
    else
      let k2 := knownIn tbl (twoEditsTokenDistances t)
      if k2 ≠ [] then k2 else tokenAsList

/-- `AbstractSpellingCorrector._correct_token` for the Norvig strategy. -/
def norvigCorrectToken (tbl : FreqTable) (t : Word) : Option Word :=
  maxByFreq tbl (norvigCandidates tbl t)

/-- `SymmetricDeleteCorrector._one_edit_deleted_variations`. -/
def oneEditDeletedVariations (t : Word) : List Word :=
  (splits t).filterMap (fun p =>
    match p.2 with
    | [] => none
    | _ :: rest => some (p.1 ++ rest))

/-- `SymmetricDeleteCorrector._two_edits_deleted_variations`. -/
def twoEditsDeletedVariations (t : Word) : List Word :=
  (oneEditDeletedVariations t).flatMap oneEditDeletedVariations

/-- `set.add`: add a word to a bucket unless already present (Python set
semantics with insertion order). -/
def bucketAdd (b : List Word) (w : Word) : List Word :=
  if w ∈ b then b else b ++ [w]

/-- `deleted_variation_2_dictionary_words[deleted_variation].add(word)` on a
`defaultdict(set)`: update the bucket of an existing key in place, or append a
fresh key (dict insertion order). -/
def indexAdd : DeletionIndex → Word → Word → DeletionIndex
  | [], k, w => [(k, [w])]
  | (k0, b) :: rest, k, w =>
    if k0 = k then (k0, bucketAdd b w) :: rest else (k0, b) :: indexAdd rest k w

/-- The inner loop of `_create_deleted_variation_2_dictionary_words` for one
dictionary word: insert the word under each of its deletion variants. -/
def addWordDeletions (idx : DeletionIndex) (w : Word) : DeletionIndex :=
  (oneEditDeletedVariations w ++ twoEditsDeletedVariations w).foldl
    (fun i v => indexAdd i v w) idx

/-- `SymmetricDeleteCorrector._create_deleted_variation_2_dictionary_words`:
fold over the dictionary keys in order. -/
def createDeletedVariation2DictionaryWords (tbl : FreqTable) : DeletionIndex :=
  (tbl.map Prod.fst).foldl addWordDeletions []

/-- `defaultdict.__getitem__`: return the bucket of `k`, inserting an empty
bucket (appended, per dict insertion order) when `k` is missing. -/
def ddGet (idx : DeletionIndex) (k : Word) : List Word × DeletionIndex :=
  match List.lookup k idx with
  | some b => (b, idx)
  | none => ([], idx ++ [(k, [])])

/-- `set(chain.from_iterable(index[k] for k in ks))`: concatenate the buckets
of all keys in `ks`, threading the `defaultdict` mutation left to right. -/
def ddGetAll (idx : DeletionIndex) : List Word → List Word × DeletionIndex
  | [] => ([], idx)
  | k :: rest =>
    match ddGet idx k with
    | (b, idx1) =>
      match ddGetAll idx1 rest with
      | (u, idx2) => (b ++ u, idx2)

/-- `SymmetricDeleteCorrector._candidates`: the `or` cascade over the exact
token, the bucket of the literal token, the union of buckets of its
deletion-distance-1 variants, and the union of buckets of its
deletion-distance-2 variants — with NO literal-token fallback.  Returns the
candidates together with the (possibly mutated) deletion index. -/
def symCandidates (tbl : FreqTable) (idx : DeletionIndex) (t : Word) :
    List Word × DeletionIndex :=
  let tokenAsList : List Word := [t]
  let k0 := knownIn tbl tokenAsList
  if k0 ≠ [] then (k0, idx)
  else
    match ddGet idx t with
    | (b0, idx1) =>
      if b0 ≠ [] then (b0, idx1)
      else
        match ddGetAll idx1 (oneEditDeletedVariations t) with
        | (u1, idx2) =>
          if u1 ≠ [] then (u1, idx2)
          else ddGetAll idx2 (twoEditsDeletedVariations t)

/-- `AbstractSpellingCorrector._correct_token` for the symmetric-delete
strategy, threading the deletion-index state. -/
def symCorrectToken (tbl : FreqTable) (idx : DeletionIndex) (t : Word) :
    Option Word × DeletionIndex :=
  match symCandidates tbl idx t with
  | (cs, idx1) => (maxByFreq tbl cs, idx1)

/-- Python's `str.lower` on a single character, restricted to ASCII. -/
def lowerChar (c : Char) : Char :=
  if 65 ≤ c.toNat ∧ c.toNat ≤ 90 then Char.ofNat (c.toNat + 32) else c

/-- `utterance.lower()`. -/
def lowerStr (s : List Char) : List Char := s.map lowerChar

/-- The whitespace characters recognised by Python's `str.split()` (ASCII). -/
def isWs (c : Char) : Bool :=
  c == ' ' || c == Char.ofNat 9 || c == Char.ofNat 10 || c == Char.ofNat 13 ||
    c == Char.ofNat 11 || c == Char.ofNat 12

/-- Worker for `str.split()`: accumulate the current token, emit it at each
whitespace run, drop empty tokens. -/
def tokenizeGo : List Char → List Char → List Word
  | [], cur => if cur = [] then [] else [cur]
  | c :: rest, cur =>
    if isWs c then
      if cur = [] then tokenizeGo rest [] else cur :: tokenizeGo rest []
    else tokenizeGo rest (cur ++ [c])

/-- The default tokenizer `lambda utterance: utterance.split()`. -/
def tokenize (s : List Char) : List Word := tokenizeGo s []

/-- The default retokenizer `lambda tokens: " ".join(tokens)`. -/
def retokenize : List Word → List Char
  | [] => []
  | [t] => t
  | t :: t2 :: ts => t ++ ' ' :: retokenize (t2 :: ts)

/-- The per-token correction loop of `correct` for the Norvig strategy
(`[self._correct_token(token) for token in tokens]`); `none` when some
`max` call raises. -/
def norvigCorrectTokens (tbl : FreqTable) : List Word → Option (List Word)
  | [] => some []
  | t :: ts =>
    match norvigCorrectToken tbl t, norvigCorrectTokens tbl ts with
    | some w, some ws => some (w :: ws)
    | _, _ => none

/-- `AbstractSpellingCorrector.correct` for the Norvig strategy. -/
def norvigCorrect (tbl : FreqTable) (s : List Char) : Option (List Char) :=
  match norvigCorrectTokens tbl (tokenize (lowerStr s)) with
  | none => none
  | some ws => some (retokenize ws)

/-- The per-token correction loop of `correct` for the symmetric-delete
strategy, threading the deletion index; stops at the first raising token. -/
def symCorrectTokens (tbl : FreqTable) : DeletionIndex → List Word →
    Option (List Word) × DeletionIndex
  | idx, [] => (some [], idx)
  | idx, t :: ts =>
    match symCorrectToken tbl idx t with
    | (none, idx1) => (none, idx1)
    | (some w, idx1) =>
      match symCorrectTokens tbl idx1 ts with
      | (none, idx2) => (none, idx2)
      | (some ws, idx2) => (some (w :: ws), idx2)

/-- `AbstractSpellingCorrector.correct` for the symmetric-delete strategy. -/
def symCorrect (tbl : FreqTable) (idx : DeletionIndex) (s : List Char) :
    Option (List Char) × DeletionIndex :=
  match symCorrectTokens tbl idx (tokenize (lowerStr s)) with
  | (none, idx1) => (none, idx1)
  | (some ws, idx1) => (some (retokenize ws), idx1)

/-! ### Frequency-table lemmas -/

lemma isKnown_nil (w : Word) : isKnown [] w = false := rfl

lemma knownIn_nil_tbl (ws : List Word) : knownIn [] ws = [] := by
  simp [knownIn, List.filter_eq_nil_iff, isKnown_nil]

lemma mem_knownIn {tbl : FreqTable} {ws : List Word} {w : Word} :
    w ∈ knownIn tbl ws ↔ w ∈ ws ∧ isKnown tbl w = true := by
  simp [knownIn, List.mem_filter]

lemma knownIn_singleton_of_known {tbl : FreqTable} {t : Word}
    (h : isKnown tbl t = true) : knownIn tbl [t] = [t] := by
  simp [knownIn, h]

lemma knownIn_singleton_of_unknown {tbl : FreqTable} {t : Word}
    (h : isKnown tbl t = false) : knownIn tbl [t] = [] := by
  simp [knownIn, h]

lemma lookup_cons (k : Word) (v : Nat) (rest : FreqTable) (w : Word) :
    List.lookup w ((k, v) :: rest) = if w = k then some v else List.lookup w rest := by
  by_cases h : w = k
  · simp [List.lookup, h]
  · simp [List.lookup, beq_eq_false_iff_ne.mpr h, h]

lemma mem_of_lookup_eq_some {tbl : FreqTable} {w : Word} {v : Nat}
    (h : List.lookup w tbl = some v) : (w, v) ∈ tbl := by
  induction tbl with
  | nil => simp [List.lookup] at h
  | cons p rest ih =>
    rw [show p = (p.1, p.2) from rfl, lookup_cons] at h
    by_cases hw : w = p.1
    · rw [if_pos hw] at h
      cases h
      simp [hw]
    · rw [if_neg hw] at h
      simp [ih h]

lemma lookup_eq_some_of_mem_keys {tbl : FreqTable} {w : Word}
    (h : w ∈ tbl.map Prod.fst) : ∃ v, List.lookup w tbl = some v ∧ (w, v) ∈ tbl := by
  induction tbl with
  | nil => simp at h
  | cons p rest ih =>
    by_cases hw : w = p.1
    · refine ⟨p.2, ?_, by simp [hw]⟩
      rw [show p = (p.1, p.2) from rfl, lookup_cons, if_pos hw]
    · rw [List.map_cons, List.mem_cons] at h
      rcases h with h | h
      · exact absurd h hw
      · obtain ⟨v, hv, hm⟩ := ih h
        refine ⟨v, ?_, by simp [hm]⟩
        rw [show p = (p.1, p.2) from rfl, lookup_cons, if_neg hw]
        exact hv

lemma isKnown_iff {tbl : FreqTable} {w : Word} :
    isKnown tbl w = true ↔ ∃ v, List.lookup w tbl = some v ∧ v ≠ 0 := by
  unfold isKnown
  cases h : List.lookup w tbl with
  | none => simp
  | some v => simp

lemma known_mem_keys {tbl : FreqTable} {w : Word}
    (h : isKnown tbl w = true) : ∃ v, (w, v) ∈ tbl ∧ v ≠ 0 := by
  obtain ⟨v, hv, hv0⟩ := isKnown_iff.mp h
  exact ⟨v, mem_of_lookup_eq_some hv, hv0⟩

/-! ### `maxByFreq` lemmas -/

lemma maxFrom_spec (tbl : FreqTable) (ws : List Word) (w : Word) :
    ∃ pre post,
      w :: ws = pre ++ maxFrom tbl w ws :: post ∧
      (∀ x ∈ pre, frequencyOf tbl x < frequencyOf tbl (maxFrom tbl w ws)) ∧
      (∀ x ∈ w :: ws, frequencyOf tbl x ≤ frequencyOf tbl (maxFrom tbl w ws)) := by
  induction ws generalizing w with
  | nil => exact ⟨[], [], rfl, by simp, by simp [maxFrom]⟩
  | cons x rest ih =>
    by_cases h : frequencyOf tbl w < frequencyOf tbl x
    · obtain ⟨pre, post, heq, hpre, hall⟩ := ih x
      rw [show maxFrom tbl w (x :: rest) = maxFrom tbl x rest by rw [maxFrom, if_pos h]]
      have hwlt : frequencyOf tbl w < frequencyOf tbl (maxFrom tbl x rest) :=
        lt_of_lt_of_le h (hall x (by simp))
      refine ⟨w :: pre, post, by rw [List.cons_append, ← heq], ?_, ?_⟩
      · intro y hy
        rcases List.mem_cons.mp hy with hy | hy
        · subst hy; exact hwlt
        · exact hpre y hy
      · intro y hy
        rcases List.mem_cons.mp hy with hy | hy
        · subst hy; exact le_of_lt hwlt
        · exact hall y hy
    · obtain ⟨pre, post, heq, hpre, hall⟩ := ih w
      rw [show maxFrom tbl w (x :: rest) = maxFrom tbl w rest by rw [maxFrom, if_neg h]]
      have hxle : frequencyOf tbl x ≤ frequencyOf tbl (maxFrom tbl w rest) :=
        le_trans (le_of_not_lt h) (hall w (by simp))
      cases pre with
      | nil =>
        simp only [List.nil_append] at heq
        obtain ⟨hw, hpost⟩ := List.cons_eq_cons.mp heq
        refine ⟨[], x :: rest, ?_, by simp, ?_⟩
        · simp only [List.nil_append]
          rw [← hw]
        intro y hy
        rcases List.mem_cons.mp hy with hy | hy
        · subst hy; exact hall y (by simp)
        · rcases List.mem_cons.mp hy with hy | hy
          · subst hy; exact hxle
          · exact hall y (by simp [hy])
      | cons w1 pre1 =>
        simp only [List.cons_append] at heq
        obtain ⟨hw, hrest⟩ := List.cons_eq_cons.mp heq
        refine ⟨w :: x :: pre1, post, ?_, ?_, ?_⟩
        · rw [List.cons_append, List.cons_append, ← hrest]
        · intro y hy
          rcases List.mem_cons.mp hy with hy | hy
          · subst hy
            have hw1 := hpre w1 (by simp)
            rw [← hw] at hw1
            exact hw1
          · rcases List.mem_cons.mp hy with hy | hy
            · subst hy
              refine lt_of_le_of_lt (le_of_not_lt h) ?_
              have hw1 := hpre w1 (by simp)
              rw [← hw] at hw1
              exact hw1
            · exact hpre y (by simp [hy])
        · intro y hy
          rcases List.mem_cons.mp hy with hy | hy
          · subst hy; exact hall y (by simp)
          · rcases List.mem_cons.mp hy with hy | hy
            · subst hy; exact hxle
            · exact hall y (by simp [hy])

lemma maxByFreq_spec {tbl : FreqTable} {cs : List Word} {w : Word}
    (h : maxByFreq tbl cs = some w) :
    ∃ pre post,
      cs = pre ++ w :: post ∧
      (∀ x ∈ pre, frequencyOf tbl x < frequencyOf tbl w) ∧
      (∀ x ∈ cs, frequencyOf tbl x ≤ frequencyOf tbl w) := by
  cases cs with
  | nil => simp [maxByFreq] at h
  | cons c rest =>
    have hw : maxFrom tbl c rest = w := by
      simpa [maxByFreq] using h
    obtain ⟨pre, post, heq, hpre, hall⟩ := maxFrom_spec tbl rest c
    rw [hw] at heq hpre hall
    exact ⟨pre, post, heq, hpre, hall⟩

lemma maxByFreq_mem {tbl : FreqTable} {cs : List Word} {w : Word}
    (h : maxByFreq tbl cs = some w) : w ∈ cs := by
  obtain ⟨pre, post, heq, _, _⟩ := maxByFreq_spec h
  rw [heq]
  exact List.mem_append_right pre (by simp)

lemma maxByFreq_isSome {tbl : FreqTable} {cs : List Word} (h : cs ≠ []) :
    ∃ w, maxByFreq tbl cs = some w := by
  cases cs with
  | nil => exact absurd rfl h
  | cons c rest => exact ⟨maxFrom tbl c rest, rfl⟩

lemma maxByFreq_singleton (tbl : FreqTable) (t : Word) :
    maxByFreq tbl [t] = some t := rfl

/-! ### Norvig cascade lemmas -/

lemma norvigCandidates_known {tbl : FreqTable} {t : Word}
    (h : isKnown tbl t = true) : norvigCandidates tbl t = [t] := by
  simp [norvigCandidates, knownIn_singleton_of_known h]

lemma norvigCandidates_unknown1 {tbl : FreqTable} {t : Word}
    (h : isKnown tbl t = false) (h1 : knownIn tbl (oneEditTokenDistances t) ≠ []) :
    norvigCandidates tbl t = knownIn tbl (oneEditTokenDistances t) := by
  simp [norvigCandidates, knownIn_singleton_of_unknown h, h1]

lemma norvigCandidates_unknown2 {tbl : FreqTable} {t : Word}
    (h : isKnown tbl t = false) (h1 : knownIn tbl (oneEditTokenDistances t) = [])
    (h2 : knownIn tbl (twoEditsTokenDistances t) ≠ []) :
    norvigCandidates tbl t = knownIn tbl (twoEditsTokenDistances t) := by
  simp [norvigCandidates, knownIn_singleton_of_unknown h, h1, h2]

lemma norvigCandidates_fallback {tbl : FreqTable} {t : Word}
    (h : isKnown tbl t = false) (h1 : knownIn tbl (oneEditTokenDistances t) = [])
    (h2 : knownIn tbl (twoEditsTokenDistances t) = []) :
    norvigCandidates tbl t = [t] := by
  simp [norvigCandidates, knownIn_singleton_of_unknown h, h1, h2]

lemma norvigCandidates_ne_nil (tbl : FreqTable) (t : Word) :
    norvigCandidates tbl t ≠ [] := by
  by_cases h : isKnown tbl t = true
  · simp [norvigCandidates_known h]
  · rw [Bool.not_eq_true] at h
    by_cases h1 : knownIn tbl (oneEditTokenDistances t) = []
    · by_cases h2 : knownIn tbl (twoEditsTokenDistances t) = []
      · simp [norvigCandidates_fallback h h1 h2]
      · simp [norvigCandidates_unknown2 h h1 h2, h2]
    · simp [norvigCandidates_unknown1 h h1, h1]

lemma norvigCandidates_mem_cases {tbl : FreqTable} {t w : Word}
    (hw : w ∈ norvigCandidates tbl t) : isKnown tbl w = true ∨ w = t := by
  by_cases h : isKnown tbl t = true
  · rw [norvigCandidates_known h] at hw
    right
    simpa using hw
  · rw [Bool.not_eq_true] at h
    by_cases h1 : knownIn tbl (oneEditTokenDistances t) = []
    · by_cases h2 : knownIn tbl (twoEditsTokenDistances t) = []
      · rw [norvigCandidates_fallback h h1 h2] at hw
        right
        simpa using hw
      · rw [norvigCandidates_unknown2 h h1 h2] at hw
        exact Or.inl (mem_knownIn.mp hw).2
    · rw [norvigCandidates_unknown1 h h1] at hw
      exact Or.inl (mem_knownIn.mp hw).2

lemma norvigCorrectToken_isSome (tbl : FreqTable) (t : Word) :
    ∃ w, norvigCorrectToken tbl t = some w := by
  unfold norvigCorrectToken
  exact maxByFreq_isSome (norvigCandidates_ne_nil tbl t)

lemma norvigCorrectToken_known {tbl : FreqTable} {t : Word}
    (h : isKnown tbl t = true) : norvigCorrectToken tbl t = some t := by
  rw [norvigCorrectToken, norvigCandidates_known h, maxByFreq_singleton]

lemma norvigCorrectToken_stable {tbl : FreqTable} {t w : Word}
    (h : norvigCorrectToken tbl t = some w) :
    norvigCorrectToken tbl w = some w := by
  have hw : w ∈ norvigCandidates tbl t := maxByFreq_mem h
  rcases norvigCandidates_mem_cases hw with hk | ht
  · exact norvigCorrectToken_known hk
  · rw [ht]
    rw [ht] at h
    exact h

/-! ### Deletion-index lemmas -/

/-- `k` has a bucket in the index and `w` belongs to it. -/
def Contains (idx : DeletionIndex) (k w : Word) : Prop :=
  ∃ b, List.lookup k idx = some b ∧ w ∈ b

lemma lookupIdx_cons (k : Word) (v : List Word) (rest : DeletionIndex) (w : Word) :
    List.lookup w ((k, v) :: rest) = if w = k then some v else List.lookup w rest := by
  by_cases h : w = k
  · simp [List.lookup, h]
  · simp [List.lookup, beq_eq_false_iff_ne.mpr h, h]

lemma mem_bucketAdd_self (b : List Word) (w : Word) : w ∈ bucketAdd b w := by
  by_cases h : w ∈ b <;> simp [bucketAdd, h]

lemma mem_bucketAdd_mono {b : List Word} {x : Word} (w : Word) (h : x ∈ b) :
    x ∈ bucketAdd b w := by
  by_cases hw : w ∈ b <;> simp [bucketAdd, hw, h]

lemma mem_bucketAdd_cases {b : List Word} {x w : Word} (h : x ∈ bucketAdd b w) :
    x ∈ b ∨ x = w := by
  by_cases hw : w ∈ b
  · simp only [bucketAdd, if_pos hw] at h
    exact Or.inl h
  · simp only [bucketAdd, if_neg hw, List.mem_append, List.mem_singleton] at h
    exact h

lemma contains_indexAdd_self (idx : DeletionIndex) (k w : Word) :
    Contains (indexAdd idx k w) k w := by
  induction idx with
  | nil =>
    exact ⟨[w], by rw [indexAdd, lookupIdx_cons, if_pos rfl], by simp⟩
  | cons p rest ih =>
    obtain ⟨k0, b⟩ := p
    by_cases h : k0 = k
    · refine ⟨bucketAdd b w, ?_, mem_bucketAdd_self b w⟩
      rw [indexAdd, if_pos h, lookupIdx_cons, if_pos h.symm]
    · obtain ⟨b1, hl, hm⟩ := ih
      refine ⟨b1, ?_, hm⟩
      rw [indexAdd, if_neg h, lookupIdx_cons, if_neg (fun hk => h hk.symm)]
      exact hl

lemma contains_indexAdd_mono {idx : DeletionIndex} {k1 w1 : Word} (k w : Word)
    (h : Contains idx k1 w1) : Contains (indexAdd idx k w) k1 w1 := by
  induction idx with
  | nil =>
    obtain ⟨b1, hl, _⟩ := h
    simp [List.lookup] at hl
  | cons p rest ih =>
    obtain ⟨k0, b⟩ := p
    obtain ⟨b1, hl, hm⟩ := h
    rw [lookupIdx_cons] at hl
    by_cases hk : k0 = k
    · rw [indexAdd, if_pos hk]
      by_cases h1 : k1 = k0
      · rw [if_pos h1] at hl
        obtain rfl := Option.some.inj hl
        exact ⟨bucketAdd b w, by rw [lookupIdx_cons, if_pos h1], mem_bucketAdd_mono w hm⟩
      · rw [if_neg h1] at hl
        exact ⟨b1, by rw [lookupIdx_cons, if_neg h1]; exact hl, hm⟩
    · rw [indexAdd, if_neg hk]
      by_cases h1 : k1 = k0
      · rw [if_pos h1] at hl
        obtain rfl := Option.some.inj hl
        exact ⟨b, by rw [lookupIdx_cons, if_pos h1], hm⟩
      · rw [if_neg h1] at hl
        obtain ⟨b2, hl2, hm2⟩ := ih ⟨b1, hl, hm⟩
        exact ⟨b2, by rw [lookupIdx_cons, if_neg h1]; exact hl2, hm2⟩

lemma contains_foldl_indexAdd_mono {k1 w1 : Word} (vs : List Word) (w : Word)
    (idx : DeletionIndex) (h : Contains idx k1 w1) :
    Contains (vs.foldl (fun i v => indexAdd i v w) idx) k1 w1 := by
  induction vs generalizing idx with
  | nil => exact h
  | cons v rest ih =>
    rw [List.foldl_cons]
    exact ih _ (contains_indexAdd_mono v w h)

lemma contains_foldl_indexAdd_self {v : Word} (vs : List Word) (w : Word)
    (idx : DeletionIndex) (hv : v ∈ vs) :
    Contains (vs.foldl (fun i v => indexAdd i v w) idx) v w := by
  induction vs generalizing idx with
  | nil => simp at hv
  | cons v0 rest ih =>
    rw [List.foldl_cons]
    rcases List.mem_cons.mp hv with h | h
    · subst h
      exact contains_foldl_indexAdd_mono rest w _ (contains_indexAdd_self idx v w)
    · exact ih _ h

lemma contains_addWordDeletions_self {v : Word} (idx : DeletionIndex) (w : Word)
    (hv : v ∈ oneEditDeletedVariations w ++ twoEditsDeletedVariations w) :
    Contains (addWordDeletions idx w) v w :=
  contains_foldl_indexAdd_self _ w idx hv

lemma contains_addWordDeletions_mono {k1 w1 : Word} (idx : DeletionIndex) (w : Word)
    (h : Contains idx k1 w1) : Contains (addWordDeletions idx w) k1 w1 :=
  contains_foldl_indexAdd_mono _ w idx h

lemma contains_foldl_addWordDeletions_mono {k1 w1 : Word} (ks : List Word)
    (idx : DeletionIndex) (h : Contains idx k1 w1) :
    Contains (ks.foldl addWordDeletions idx) k1 w1 := by
  induction ks generalizing idx with
  | nil => exact h
  | cons k0 rest ih =>
    rw [List.foldl_cons]
    exact ih _ (contains_addWordDeletions_mono _ k0 h)

lemma contains_foldl_addWord {w v : Word} (ks : List Word) (idx : DeletionIndex)
    (hw : w ∈ ks) (hv : v ∈ oneEditDeletedVariations w ++ twoEditsDeletedVariations w) :
    Contains (ks.foldl addWordDeletions idx) v w := by
  induction ks generalizing idx with
  | nil => simp at hw
  | cons k0 rest ih =>
    rw [List.foldl_cons]
    rcases List.mem_cons.mp hw with h | h
    · subst h
      exact contains_foldl_addWordDeletions_mono rest _
        (contains_addWordDeletions_self idx w hv)
    · exact ih _ h

lemma deletionIndex_closure {tbl : FreqTable} {w v : Word}
    (hw : w ∈ tbl.map Prod.fst)
    (hv : v ∈ oneEditDeletedVariations w ++ twoEditsDeletedVariations w) :
    Contains (createDeletedVariation2DictionaryWords tbl) v w :=
  contains_foldl_addWord _ [] hw hv

/-! ### Bucket-membership bounds and the symmetric-delete query lemmas -/

/-- Every word stored in any bucket of the index belongs to `ks`. -/
def BucketsBound (idx : DeletionIndex) (ks : List Word) : Prop :=
  ∀ k b, List.lookup k idx = some b → ∀ x ∈ b, x ∈ ks

lemma bucketsBound_nil (ks : List Word) : BucketsBound [] ks := by
  intro k b hl
  simp [List.lookup] at hl

lemma lookup_indexAdd_cases {idx : DeletionIndex} {k w k1 : Word} {b1 : List Word}
    {x : Word} (hl : List.lookup k1 (indexAdd idx k w) = some b1) (hx : x ∈ b1) :
    (∃ b0, List.lookup k1 idx = some b0 ∧ x ∈ b0) ∨ x = w := by
  induction idx with
  | nil =>
    rw [indexAdd, lookupIdx_cons] at hl
    by_cases h1 : k1 = k
    · rw [if_pos h1] at hl
      obtain rfl := Option.some.inj hl
      rw [List.mem_singleton] at hx
      exact Or.inr hx
    · rw [if_neg h1] at hl
      simp [List.lookup] at hl
  | cons p rest ih =>
    obtain ⟨k0, b0⟩ := p
    by_cases hk : k0 = k
    · rw [indexAdd, if_pos hk, lookupIdx_cons] at hl
      by_cases h1 : k1 = k0
      · rw [if_pos h1] at hl
        obtain rfl := Option.some.inj hl
        rcases mem_bucketAdd_cases hx with h | h
        · exact Or.inl ⟨b0, by rw [lookupIdx_cons, if_pos h1], h⟩
        · exact Or.inr h
      · rw [if_neg h1] at hl
        exact Or.inl ⟨b1, by rw [lookupIdx_cons, if_neg h1]; exact hl, hx⟩
    · rw [indexAdd, if_neg hk, lookupIdx_cons] at hl
      by_cases h1 : k1 = k0
      · rw [if_pos h1] at hl
        obtain rfl := Option.some.inj hl
        exact Or.inl ⟨b0, by rw [lookupIdx_cons, if_pos h1], hx⟩
      · rw [if_neg h1] at hl
        rcases ih hl with ⟨b2, hl2, hx2⟩ | h
        · exact Or.inl ⟨b2, by rw [lookupIdx_cons, if_neg h1]; exact hl2, hx2⟩
        · exact Or.inr h

lemma bucketsBound_indexAdd {idx : DeletionIndex} {ks : List Word} {w : Word}
    (h : BucketsBound idx ks) (hw : w ∈ ks) (k : Word) :
    BucketsBound (indexAdd idx k w) ks := by
  intro k1 b hl x hx
  rcases lookup_indexAdd_cases hl hx with ⟨b0, hl0, hx0⟩ | hxw
  · exact h k1 b0 hl0 x hx0
  · exact hxw ▸ hw

lemma bucketsBound_foldl_indexAdd {idx : DeletionIndex} {ks : List Word} {w : Word}
    (vs : List Word) (h : BucketsBound idx ks) (hw : w ∈ ks) :
    BucketsBound (vs.foldl (fun i v => indexAdd i v w) idx) ks := by
  induction vs generalizing idx with
  | nil => exact h
  | cons v rest ih =>
    rw [List.foldl_cons]
    exact ih (bucketsBound_indexAdd h hw v)

lemma bucketsBound_addWordDeletions {idx : DeletionIndex} {ks : List Word} {w : Word}
    (h : BucketsBound idx ks) (hw : w ∈ ks) :
    BucketsBound (addWordDeletions idx w) ks :=
  bucketsBound_foldl_indexAdd _ h hw

lemma bucketsBound_createIndex (tbl : FreqTable) :
    BucketsBound (createDeletedVariation2DictionaryWords tbl) (tbl.map Prod.fst) := by
  have main : ∀ (ks : List Word) (idx : DeletionIndex),
      (∀ k ∈ ks, k ∈ tbl.map Prod.fst) → BucketsBound idx (tbl.map Prod.fst) →
      BucketsBound (ks.foldl addWordDeletions idx) (tbl.map Prod.fst) := by
    intro ks
    induction ks with
    | nil => intro idx _ h; exact h
    | cons k0 rest ih =>
      intro idx hks h
      rw [List.foldl_cons]
      exact ih _ (fun k hk => hks k (by simp [hk]))
        (bucketsBound_addWordDeletions h (hks k0 (by simp)))
  exact main _ [] (fun k hk => hk) (bucketsBound_nil _)

lemma lookup_append_emptyBucket {idx : DeletionIndex} {k k1 : Word} {b : List Word}
    (h : List.lookup k1 (idx ++ [(k, ([] : List Word))]) = some b) :
    List.lookup k1 idx = some b ∨ b = [] := by
  induction idx with
  | nil =>
    rw [List.nil_append, lookupIdx_cons] at h
    by_cases h1 : k1 = k
    · rw [if_pos h1] at h
      exact Or.inr (Option.some.inj h).symm
    · rw [if_neg h1] at h
      simp [List.lookup] at h
  | cons p rest ih =>
    obtain ⟨k0, b0⟩ := p
    rw [List.cons_append, lookupIdx_cons] at h
    by_cases h1 : k1 = k0
    · rw [if_pos h1] at h
      exact Or.inl (by rw [lookupIdx_cons, if_pos h1]; exact h)
    · rw [if_neg h1] at h
      rcases ih h with h2 | h2
      · exact Or.inl (by rw [lookupIdx_cons, if_neg h1]; exact h2)
      · exact Or.inr h2

lemma bucketsBound_ddGet {idx : DeletionIndex} {ks : List Word} (k : Word)
    (h : BucketsBound idx ks) :
    (∀ x ∈ (ddGet idx k).1, x ∈ ks) ∧ BucketsBound (ddGet idx k).2 ks := by
  unfold ddGet
  cases hl : List.lookup k idx with
  | some b =>
    exact ⟨fun x hx => h k b hl x hx, h⟩
  | none =>
    refine ⟨by simp, ?_⟩
    intro k1 b1 hl1 x hx
    rcases lookup_append_emptyBucket hl1 with h2 | h2
    · exact h k1 b1 h2 x hx
    · subst h2
      simp at hx

lemma bucketsBound_ddGetAll {idx : DeletionIndex} {ks : List Word}
    (vs : List Word) (h : BucketsBound idx ks) :
    (∀ x ∈ (ddGetAll idx vs).1, x ∈ ks) ∧ BucketsBound (ddGetAll idx vs).2 ks := by
  induction vs generalizing idx with
  | nil => exact ⟨by simp [ddGetAll], h⟩
  | cons v rest ih =>
    obtain ⟨hb, hidx⟩ := bucketsBound_ddGet v h
    rcases hdd : ddGet idx v with ⟨b, idx1⟩
    rw [hdd] at hb hidx
    obtain ⟨hu, hidx2⟩ := ih hidx
    rcases hall : ddGetAll idx1 rest with ⟨u, idx2⟩
    rw [hall] at hu hidx2
    have hcons : ddGetAll idx (v :: rest) = (b ++ u, idx2) := by
      simp only [ddGetAll, hdd, hall]
    refine ⟨?_, ?_⟩
    · intro x hx
      rw [hcons] at hx
      rcases List.mem_append.mp hx with hx | hx
      · exact hb x hx
      · exact hu x hx
    · rw [hcons]
      exact hidx2

lemma symCandidates_known {tbl : FreqTable} {t : Word} (idx : DeletionIndex)
    (h : isKnown tbl t = true) : symCandidates tbl idx t = ([t], idx) := by
  simp [symCandidates, knownIn_singleton_of_known h]

lemma symCandidates_spec {tbl : FreqTable} {idx : DeletionIndex} {ks : List Word}
    (t : Word) (h : BucketsBound idx ks) :
    (∀ x ∈ (symCandidates tbl idx t).1, isKnown tbl x = true ∨ x ∈ ks) ∧
    BucketsBound (symCandidates tbl idx t).2 ks := by
  by_cases hk : isKnown tbl t = true
  · rw [symCandidates_known idx hk]
    refine ⟨?_, h⟩
    intro x hx
    rw [List.mem_singleton] at hx
    exact Or.inl (hx ▸ hk)
  · rw [Bool.not_eq_true] at hk
    have h0 : knownIn tbl [t] = [] := knownIn_singleton_of_unknown hk
    obtain ⟨hb0, hidx1⟩ := bucketsBound_ddGet t h
    rcases hdd : ddGet idx t with ⟨b0, idx1⟩
    rw [hdd] at hb0 hidx1
    by_cases hb : b0 = []
    · subst hb
      obtain ⟨hu1, hidx2⟩ := bucketsBound_ddGetAll (oneEditDeletedVariations t) hidx1
      rcases h1 : ddGetAll idx1 (oneEditDeletedVariations t) with ⟨u1, idx2⟩
      rw [h1] at hu1 hidx2
      by_cases hu : u1 = []
      · subst hu
        obtain ⟨hu2, hidx3⟩ := bucketsBound_ddGetAll (twoEditsDeletedVariations t) hidx2
        rcases h2 : ddGetAll idx2 (twoEditsDeletedVariations t) with ⟨u2, idx3⟩
        rw [h2] at hu2 hidx3
        rw [show symCandidates tbl idx t = (u2, idx3) by
          simp [symCandidates, h0, hdd, h1, h2]]
        exact ⟨fun x hx => Or.inr (hu2 x hx), hidx3⟩
      · rw [show symCandidates tbl idx t = (u1, idx2) by
          simp [symCandidates, h0, hdd, h1, hu]]
        exact ⟨fun x hx => Or.inr (hu1 x hx), hidx2⟩
    · rw [show symCandidates tbl idx t = (b0, idx1) by
        simp [symCandidates, h0, hdd, hb]]
      exact ⟨fun x hx => Or.inr (hb0 x hx), hidx1⟩

/-- Every frequency stored in the table is positive (the spec's data model:
"word ... to a positive integer occurrence count"). -/
def PosTable (tbl : FreqTable) : Prop := ∀ p ∈ tbl, p.2 ≠ 0

lemma mem_keys_isKnown {tbl : FreqTable} {w : Word} (hpos : PosTable tbl)
    (h : w ∈ tbl.map Prod.fst) : isKnown tbl w = true := by
  obtain ⟨v, hv, hm⟩ := lookup_eq_some_of_mem_keys h
  exact isKnown_iff.mpr ⟨v, hv, hpos (w, v) hm⟩

lemma symCorrectToken_known {tbl : FreqTable} {t : Word} (idx : DeletionIndex)
    (h : isKnown tbl t = true) : symCorrectToken tbl idx t = (some t, idx) := by
  rw [symCorrectToken, symCandidates_known idx h]
  rfl

lemma symCorrectToken_some_known {tbl : FreqTable} {idx idx1 : DeletionIndex}
    {t w : Word} (hpos : PosTable tbl)
    (hb : BucketsBound idx (tbl.map Prod.fst))
    (h : symCorrectToken tbl idx t = (some w, idx1)) :
    isKnown tbl w = true ∧ BucketsBound idx1 (tbl.map Prod.fst) := by
  obtain ⟨hmem, hb1⟩ := @symCandidates_spec tbl idx (List.map Prod.fst tbl) t hb
  rw [symCorrectToken] at h
  rcases hc : symCandidates tbl idx t with ⟨cs, idx2⟩
  rw [hc] at h hmem hb1
  obtain ⟨hmax, hidx⟩ := Prod.mk.injEq .. ▸ h
  constructor
  · have hw : w ∈ cs := maxByFreq_mem hmax
    rcases hmem w hw with hk | hk
    · exact hk
    · exact mem_keys_isKnown hpos hk
  · exact hidx ▸ hb1

lemma symCorrectTokens_all_known {tbl : FreqTable} {ts : List Word}
    (idx : DeletionIndex) (h : ∀ t ∈ ts, isKnown tbl t = true) :
    symCorrectTokens tbl idx ts = (some ts, idx) := by
  induction ts generalizing idx with
  | nil => rfl
  | cons t rest ih =>
    have h2 := ih idx (fun x hx => h x (by simp [hx]))
    simp only [symCorrectTokens, symCorrectToken_known idx (h t (by simp)), h2]

lemma symCorrectTokens_some_known {tbl : FreqTable} {ts ws : List Word}
    {idx idx1 : DeletionIndex} (hpos : PosTable tbl)
    (hb : BucketsBound idx (tbl.map Prod.fst))
    (h : symCorrectTokens tbl idx ts = (some ws, idx1)) :
    (∀ w ∈ ws, isKnown tbl w = true) ∧ BucketsBound idx1 (tbl.map Prod.fst) := by
  induction ts generalizing idx ws idx1 with
  | nil =>
    rw [symCorrectTokens] at h
    obtain ⟨hws, hidx⟩ := Prod.mk.injEq .. ▸ h
    obtain rfl := Option.some.inj hws
    exact ⟨by simp, hidx ▸ hb⟩
  | cons t rest ih =>
    rcases h1 : symCorrectToken tbl idx t with ⟨r1, idxA⟩
    rcases r1 with _ | w0
    · simp only [symCorrectTokens, h1] at h
      simp at h
    · obtain ⟨hw0, hbA⟩ := symCorrectToken_some_known hpos hb h1
      rcases h2 : symCorrectTokens tbl idxA rest with ⟨r2, idxB⟩
      rcases r2 with _ | ws0
      · simp only [symCorrectTokens, h1, h2] at h
        simp at h
      · simp only [symCorrectTokens, h1, h2] at h
        obtain ⟨hws, hidx⟩ := Prod.mk.injEq .. ▸ h
        obtain rfl := Option.some.inj hws
        obtain ⟨hall, hbB⟩ := ih hbA h2
        refine ⟨?_, hidx ▸ hbB⟩
        intro w hw
        rcases List.mem_cons.mp hw with hw | hw
        · exact hw ▸ hw0
        · exact hall w hw

/-! ### Lowercasing and tokenisation lemmas -/

lemma toNat_ofNat_valid {n : Nat} (h : n < 55296) : (Char.ofNat n).toNat = n := by
  unfold Char.ofNat
  split
  · rfl
  · rename_i h2
    exact absurd (Or.inl h) h2

lemma lowerChar_idem (c : Char) : lowerChar (lowerChar c) = lowerChar c := by
  by_cases h : 65 ≤ c.toNat ∧ c.toNat ≤ 90
  · have hc : lowerChar c = Char.ofNat (c.toNat + 32) := by rw [lowerChar, if_pos h]
    have hlt : (Char.ofNat (c.toNat + 32)).toNat = c.toNat + 32 :=
      toNat_ofNat_valid (by omega)
    rw [hc, lowerChar, if_neg (by rw [hlt]; omega)]
  · have hc : lowerChar c = c := by rw [lowerChar, if_neg h]
    rw [hc, hc]

lemma lowerStr_idem (s : List Char) : lowerStr (lowerStr s) = lowerStr s := by
  induction s with
  | nil => rfl
  | cons c rest ih =>
    simp only [lowerStr, List.map_cons] at ih ⊢
    rw [lowerChar_idem]
    rw [show List.map lowerChar (List.map lowerChar rest) = List.map lowerChar rest from ih]

lemma lowerChar_of_mem_lowerStr {s : List Char} {c : Char} (h : c ∈ lowerStr s) :
    lowerChar c = c := by
  obtain ⟨c0, _, rfl⟩ := List.mem_map.mp h
  exact lowerChar_idem c0

lemma tokenizeGo_chars {s cur t : List Char} {c : Char}
    (h : t ∈ tokenizeGo s cur) (hc : c ∈ t) : c ∈ cur ∨ c ∈ s := by
  induction s generalizing cur with
  | nil =>
    rw [tokenizeGo] at h
    by_cases hcur : cur = []
    · simp [hcur] at h
    · rw [if_neg hcur] at h
      rw [List.mem_singleton] at h
      exact Or.inl (h ▸ hc)
  | cons c0 rest ih =>
    rw [tokenizeGo] at h
    by_cases hws : isWs c0
    · rw [if_pos hws] at h
      by_cases hcur : cur = []
      · rw [if_pos hcur] at h
        rcases ih h with h2 | h2
        · simp at h2
        · exact Or.inr (by simp [h2])
      · rw [if_neg hcur] at h
        rcases List.mem_cons.mp h with h2 | h2
        · exact Or.inl (h2 ▸ hc)
        · rcases ih h2 with h3 | h3
          · simp at h3
          · exact Or.inr (by simp [h3])
    · rw [if_neg hws] at h
      rcases ih h with h2 | h2
      · rcases List.mem_append.mp h2 with h3 | h3
        · exact Or.inl h3
        · rw [List.mem_singleton] at h3
          exact Or.inr (by simp [h3])
      · exact Or.inr (by simp [h2])

lemma tokenizeGo_ne_nil {s cur t : List Char} (h : t ∈ tokenizeGo s cur) :
    t ≠ [] := by
  induction s generalizing cur with
  | nil =>
    rw [tokenizeGo] at h
    by_cases hcur : cur = []
    · simp [hcur] at h
    · rw [if_neg hcur] at h
      rw [List.mem_singleton] at h
      exact h ▸ hcur
  | cons c0 rest ih =>
    rw [tokenizeGo] at h
    by_cases hws : isWs c0
    · rw [if_pos hws] at h
      by_cases hcur : cur = []
      · rw [if_pos hcur] at h
        exact ih h
      · rw [if_neg hcur] at h
        rcases List.mem_cons.mp h with h2 | h2
        · exact h2 ▸ hcur
        · exact ih h2
    · rw [if_neg hws] at h
      exact ih h

lemma tokenizeGo_no_ws {s cur t : List Char}
    (hcur : ∀ c ∈ cur, isWs c = false) (h : t ∈ tokenizeGo s cur) :
    ∀ c ∈ t, isWs c = false := by
  induction s generalizing cur with
  | nil =>
    rw [tokenizeGo] at h
    by_cases hc : cur = []
    · simp [hc] at h
    · rw [if_neg hc] at h
      rw [List.mem_singleton] at h
      exact h ▸ hcur
  | cons c0 rest ih =>
    rw [tokenizeGo] at h
    by_cases hws : isWs c0
    · rw [if_pos hws] at h
      by_cases hc : cur = []
      · rw [if_pos hc] at h
        exact ih (by simp) h
      · rw [if_neg hc] at h
        rcases List.mem_cons.mp h with h2 | h2
        · exact h2 ▸ hcur
        · exact ih (by simp) h2
    · rw [if_neg hws] at h
      refine ih ?_ h
      intro c hcm
      rcases List.mem_append.mp hcm with h3 | h3
      · exact hcur c h3
      · rw [List.mem_singleton] at h3
        subst h3
        exact Bool.not_eq_true _ ▸ hws

lemma tokenizeGo_append_nonws {t : List Char} (hws : ∀ c ∈ t, isWs c = false)
    (s cur : List Char) : tokenizeGo (t ++ s) cur = tokenizeGo s (cur ++ t) := by
  induction t generalizing cur with
  | nil => rw [List.nil_append, List.append_nil]
  | cons c0 t0 ih =>
    rw [List.cons_append, tokenizeGo, if_neg (by simp [hws c0 (by simp)])]
    rw [ih (fun c hc => hws c (by simp [hc])) (cur ++ [c0])]
    rw [List.append_assoc, List.singleton_append]

lemma tokenize_retokenize {ts : List Word}
    (h : ∀ t ∈ ts, t ≠ [] ∧ ∀ c ∈ t, isWs c = false) :
    tokenize (retokenize ts) = ts := by
  induction ts with
  | nil => rfl
  | cons t ts0 ih =>
    cases ts0 with
    | nil =>
      obtain ⟨ht, hws⟩ := h t (by simp)
      rw [retokenize, tokenize, show t = t ++ [] from (List.append_nil t).symm,
        tokenizeGo_append_nonws (by simpa using hws) [] [], List.nil_append,
        List.append_nil, tokenizeGo, if_neg (by simpa using ht)]
    | cons t2 ts1 =>
      obtain ⟨ht, hws⟩ := h t (by simp)
      have ih2 := ih (fun x hx => h x (by simp [hx]))
      rw [retokenize, tokenize, tokenizeGo_append_nonws hws _ [], List.nil_append,
        tokenizeGo, if_pos (by decide), if_neg ht]
      rw [show tokenizeGo (retokenize (t2 :: ts1)) [] = tokenize (retokenize (t2 :: ts1)) from rfl,
        ih2]

lemma lowerStr_retokenize {ts : List Word} (h : ∀ t ∈ ts, lowerStr t = t) :
    lowerStr (retokenize ts) = retokenize ts := by
  induction ts with
  | nil => rfl
  | cons t ts0 ih =>
    cases ts0 with
    | nil => exact h t (by simp)
    | cons t2 ts1 =>
      have ih2 := ih (fun x hx => h x (by simp [hx]))
      rw [retokenize, lowerStr, List.map_append, List.map_cons]
      rw [show List.map lowerChar t = t from h t (by simp)]
      rw [show lowerChar ' ' = ' ' by decide]
      rw [show List.map lowerChar (retokenize (t2 :: ts1)) = retokenize (t2 :: ts1) from ih2]

/-! ### Pipeline lemmas for `correct` -/

/-- The spec's data-model constraints on the frequency table (section 3): keys
are non-empty lowercase words without tokenizer separators, counts are
positive. -/
def WellFormedTable (tbl : FreqTable) : Prop :=
  ∀ p ∈ tbl, p.1 ≠ [] ∧ (∀ c ∈ p.1, isWs c = false) ∧ lowerStr p.1 = p.1 ∧ p.2 ≠ 0

lemma wellFormed_posTable {tbl : FreqTable} (h : WellFormedTable tbl) : PosTable tbl :=
  fun p hp => (h p hp).2.2.2

lemma known_wf {tbl : FreqTable} {w : Word} (hwf : WellFormedTable tbl)
    (h : isKnown tbl w = true) :
    w ≠ [] ∧ (∀ c ∈ w, isWs c = false) ∧ lowerStr w = w := by
  obtain ⟨v, hm, _⟩ := known_mem_keys h
  obtain ⟨h1, h2, h3, _⟩ := hwf (w, v) hm
  exact ⟨h1, h2, h3⟩

lemma lowerStr_eq_self_of_chars {t : List Char} (h : ∀ c ∈ t, lowerChar c = c) :
    lowerStr t = t := by
  induction t with
  | nil => rfl
  | cons c rest ih =>
    rw [lowerStr, List.map_cons, h c (by simp),
      show List.map lowerChar rest = rest from ih (fun x hx => h x (by simp [hx]))]

/-- Every token produced by tokenising a lowercased utterance is non-empty,
whitespace-free and fixed by lowercasing. -/
lemma tokenize_lower_wf {s : List Char} {t : Word} (h : t ∈ tokenize (lowerStr s)) :
    t ≠ [] ∧ (∀ c ∈ t, isWs c = false) ∧ lowerStr t = t := by
  refine ⟨tokenizeGo_ne_nil h, tokenizeGo_no_ws (by simp) h, ?_⟩
  refine lowerStr_eq_self_of_chars ?_
  intro c hc
  rcases tokenizeGo_chars h hc with h2 | h2
  · simp at h2
  · exact lowerChar_of_mem_lowerStr h2

lemma norvigCorrectTokens_isSome (tbl : FreqTable) (ts : List Word) :
    ∃ ws, norvigCorrectTokens tbl ts = some ws := by
  induction ts with
  | nil => exact ⟨[], rfl⟩
  | cons t rest ih =>
    obtain ⟨ws, hws⟩ := ih
    obtain ⟨w, hw⟩ := norvigCorrectToken_isSome tbl t
    exact ⟨w :: ws, by rw [norvigCorrectTokens, hw, hws]⟩

lemma norvigCorrectTokens_stable {tbl : FreqTable} {ts ws : List Word}
    (h : norvigCorrectTokens tbl ts = some ws) :
    norvigCorrectTokens tbl ws = some ws := by
  induction ts generalizing ws with
  | nil =>
    rw [norvigCorrectTokens] at h
    obtain rfl := Option.some.inj h
    rfl
  | cons t rest ih =>
    rcases h1 : norvigCorrectToken tbl t with _ | w0
    · rw [norvigCorrectTokens, h1] at h
      simp at h
    · rcases h2 : norvigCorrectTokens tbl rest with _ | ws0
      · rw [norvigCorrectTokens, h1, h2] at h
        simp at h
      · rw [norvigCorrectTokens, h1, h2] at h
        obtain rfl := Option.some.inj h
        rw [norvigCorrectTokens, norvigCorrectToken_stable h1, ih h2]

lemma norvigCorrectTokens_wf {tbl : FreqTable} {ts ws : List Word}
    (hwf : WellFormedTable tbl)
    (hts : ∀ t ∈ ts, t ≠ [] ∧ (∀ c ∈ t, isWs c = false) ∧ lowerStr t = t)
    (h : norvigCorrectTokens tbl ts = some ws) :
    ∀ w ∈ ws, w ≠ [] ∧ (∀ c ∈ w, isWs c = false) ∧ lowerStr w = w := by
  induction ts generalizing ws with
  | nil =>
    rw [norvigCorrectTokens] at h
    obtain rfl := Option.some.inj h
    simp
  | cons t rest ih =>
    rcases h1 : norvigCorrectToken tbl t with _ | w0
    · rw [norvigCorrectTokens, h1] at h
      simp at h
    · rcases h2 : norvigCorrectTokens tbl rest with _ | ws0
      · rw [norvigCorrectTokens, h1, h2] at h
        simp at h
      · rw [norvigCorrectTokens, h1, h2] at h
        obtain rfl := Option.some.inj h
        intro w hw
        rcases List.mem_cons.mp hw with hw | hw
        · subst hw
          rcases norvigCandidates_mem_cases (maxByFreq_mem h1) with hk | hk
          · exact known_wf hwf hk
          · exact hk ▸ hts t (by simp)
        · exact ih (fun x hx => hts x (by simp [hx])) h2 w hw

lemma norvigCorrect_eq_some {tbl : FreqTable} {s u : List Char}
    (h : norvigCorrect tbl s = some u) :
    ∃ ws, norvigCorrectTokens tbl (tokenize (lowerStr s)) = some ws ∧
      u = retokenize ws := by
  rcases h1 : norvigCorrectTokens tbl (tokenize (lowerStr s)) with _ | ws
  · rw [norvigCorrect, h1] at h
    simp at h
  · rw [norvigCorrect, h1] at h
    exact ⟨ws, rfl, (Option.some.inj h).symm⟩

lemma symCorrect_eq_some {tbl : FreqTable} {idx idx1 : DeletionIndex}
    {s u : List Char} (h : symCorrect tbl idx s = (some u, idx1)) :
    ∃ ws, symCorrectTokens tbl idx (tokenize (lowerStr s)) = (some ws, idx1) ∧
      u = retokenize ws := by
  rcases h1 : symCorrectTokens tbl idx (tokenize (lowerStr s)) with ⟨r, idx2⟩
  rcases r with _ | ws
  · rw [symCorrect, h1] at h
    simp at h
  · rw [symCorrect, h1] at h
    obtain ⟨hu, hidx⟩ := Prod.mk.injEq .. ▸ h
    refine ⟨ws, ?_, (Option.some.inj hu).symm⟩
    rw [hidx]

/-- Core of claim C8 for the Norvig strategy: a corrected utterance is a fixed
point of `correct`, for a table satisfying the data model. -/
lemma norvigCorrect_stable {tbl : FreqTable} {s u : List Char}
    (hwf : WellFormedTable tbl) (h : norvigCorrect tbl s = some u) :
    norvigCorrect tbl u = some u := by
  obtain ⟨ws, hws, rfl⟩ := norvigCorrect_eq_some h
  have hwsprops : ∀ w ∈ ws, w ≠ [] ∧ (∀ c ∈ w, isWs c = false) ∧ lowerStr w = w :=
    norvigCorrectTokens_wf hwf (fun t ht => tokenize_lower_wf ht) hws
  have hlower : lowerStr (retokenize ws) = retokenize ws :=
    lowerStr_retokenize (fun t ht => (hwsprops t ht).2.2)
  have htok : tokenize (retokenize ws) = ws :=
    tokenize_retokenize (fun t ht => ⟨(hwsprops t ht).1, (hwsprops t ht).2.1⟩)
  rw [norvigCorrect, hlower, htok, norvigCorrectTokens_stable hws]

/-- Core of claim C8 for the symmetric-delete strategy: when the first pass
succeeds (producing `u` and the mutated index `idx1`), a second pass on `u`
returns `u` and leaves `idx1` unchanged. -/
lemma symCorrect_stable {tbl : FreqTable} {idx1 : DeletionIndex} {s u : List Char}
    (hwf : WellFormedTable tbl)
    (h : symCorrect tbl (createDeletedVariation2DictionaryWords tbl) s = (some u, idx1)) :
    symCorrect tbl idx1 u = (some u, idx1) := by
  obtain ⟨ws, hws, rfl⟩ := symCorrect_eq_some h
  have hknown : ∀ w ∈ ws, isKnown tbl w = true :=
    (symCorrectTokens_some_known (wellFormed_posTable hwf)
      (bucketsBound_createIndex tbl) hws).1
  have hwsprops : ∀ w ∈ ws, w ≠ [] ∧ (∀ c ∈ w, isWs c = false) ∧ lowerStr w = w :=
    fun w hw => known_wf hwf (hknown w hw)
  have hlower : lowerStr (retokenize ws) = retokenize ws :=
    lowerStr_retokenize (fun t ht => (hwsprops t ht).2.2)
  have htok : tokenize (retokenize ws) = ws :=
    tokenize_retokenize (fun t ht => ⟨(hwsprops t ht).1, (hwsprops t ht).2.1⟩)
  rw [symCorrect, hlower, htok, symCorrectTokens_all_known idx1 hknown]

/-! ### Membership characterisation of the edit generators -/

lemma mem_splits {t : Word} {p : Word × Word} :
    p ∈ splits t ↔ ∃ i, i ≤ t.length ∧ p = (t.take i, t.drop i) := by
  unfold splits
  rw [List.mem_map]
  constructor
  · rintro ⟨i, hi, rfl⟩
    exact ⟨i, Nat.lt_succ_iff.mp (List.mem_range.mp hi), rfl⟩
  · rintro ⟨i, hi, rfl⟩
    exact ⟨i, List.mem_range.mpr (Nat.lt_succ_iff.mpr hi), rfl⟩

lemma mem_insertedVariations {t s : Word} :
    s ∈ insertedVariations t ↔
      ∃ i, i ≤ t.length ∧ ∃ c, c ∈ CHARACTERS ∧ s = t.take i ++ c :: t.drop i := by
  unfold insertedVariations
  rw [List.mem_flatMap]
  constructor
  · rintro ⟨p, hp, hs⟩
    obtain ⟨i, hi, rfl⟩ := mem_splits.mp hp
    rw [List.mem_map] at hs
    obtain ⟨c, hc, rfl⟩ := hs
    exact ⟨i, hi, c, hc, rfl⟩
  · rintro ⟨i, hi, c, hc, rfl⟩
    refine ⟨(t.take i, t.drop i), mem_splits.mpr ⟨i, hi, rfl⟩, ?_⟩
    rw [List.mem_map]
    exact ⟨c, hc, rfl⟩

lemma mem_deletedDistances {t s : Word} :
    s ∈ deletedDistances t ↔
      ∃ i, i ≤ t.length ∧ t.drop i ≠ [] ∧ s = t.take i ++ (t.drop i).tail := by
  unfold deletedDistances
  rw [List.mem_filterMap]
  constructor
  · rintro ⟨p, hp, hs⟩
    obtain ⟨i, hi, rfl⟩ := mem_splits.mp hp
    rcases hd : t.drop i with _ | ⟨a, rest⟩
    · rw [hd] at hs
      simp at hs
    · rw [hd] at hs
      obtain rfl := Option.some.inj hs
      exact ⟨i, hi, by simp [hd], by simp [hd]⟩
  · rintro ⟨i, hi, hne, rfl⟩
    refine ⟨(t.take i, t.drop i), mem_splits.mpr ⟨i, hi, rfl⟩, ?_⟩
    rcases hd : t.drop i with _ | ⟨a, rest⟩
    · exact absurd hd hne
    · rfl

lemma mem_replacedVariations {t s : Word} :
    s ∈ replacedVariations t ↔
      ∃ i, i ≤ t.length ∧ t.drop i ≠ [] ∧
        ∃ c, c ∈ CHARACTERS ∧ s = t.take i ++ c :: (t.drop i).tail := by
  unfold replacedVariations
  rw [List.mem_flatMap]
  constructor
  · rintro ⟨p, hp, hs⟩
    obtain ⟨i, hi, rfl⟩ := mem_splits.mp hp
    rcases hd : t.drop i with _ | ⟨a, rest⟩
    · rw [hd] at hs
      simp at hs
    · rw [hd] at hs
      rw [List.mem_map] at hs
      obtain ⟨c, hc, rfl⟩ := hs
      exact ⟨i, hi, by simp [hd], c, hc, by simp [hd]⟩
  · rintro ⟨i, hi, hne, c, hc, rfl⟩
    refine ⟨(t.take i, t.drop i), mem_splits.mpr ⟨i, hi, rfl⟩, ?_⟩
    rcases hd : t.drop i with _ | ⟨a, rest⟩
    · exact absurd hd hne
    · exact List.mem_map.mpr ⟨c, hc, rfl⟩

lemma mem_transposedVariations {t s : Word} :
    s ∈ transposedVariations t ↔
      ∃ i, i ≤ t.length ∧ ∃ a b rest,
        t.drop i = a :: b :: rest ∧ s = t.take i ++ b :: a :: rest := by
  unfold transposedVariations
  rw [List.mem_filterMap]
  constructor
  · rintro ⟨p, hp, hs⟩
    obtain ⟨i, hi, rfl⟩ := mem_splits.mp hp
    rcases hd : t.drop i with _ | ⟨a, rest0⟩
    · rw [hd] at hs
      simp at hs
    · rcases rest0 with _ | ⟨b, rest⟩
      · rw [hd] at hs
        simp at hs
      · rw [hd] at hs
        obtain rfl := Option.some.inj hs
        exact ⟨i, hi, a, b, rest, hd, rfl⟩
  · rintro ⟨i, hi, a, b, rest, hd, rfl⟩
    refine ⟨(t.take i, t.drop i), mem_splits.mpr ⟨i, hi, rfl⟩, ?_⟩
    rw [show (t.take i, t.drop i).2 = a :: b :: rest from hd]

lemma oneEditDeletedVariations_eq_deletedDistances (t : Word) :
    oneEditDeletedVariations t = deletedDistances t := by
  unfold oneEditDeletedVariations deletedDistances
  rfl

lemma mem_oneEditDeletedVariations {t s : Word} :
    s ∈ oneEditDeletedVariations t ↔
      ∃ i, i ≤ t.length ∧ t.drop i ≠ [] ∧ s = t.take i ++ (t.drop i).tail := by
  rw [oneEditDeletedVariations_eq_deletedDistances]
  exact mem_deletedDistances

/-! ### Concrete fixtures -/

def zzW : Word := ['z', 'z']

def theW : Word := ['t', 'h', 'e']

def theTbl : FreqTable := [(theW, 1)]

def catW : Word := ['c', 'a', 't']

def catsW : Word := ['c', 'a', 't', 's']

def catTbl : FreqTable := [(catW, 3), (catsW, 1)]

def atW : Word := ['a', 't']

def abW : Word := ['a', 'b']

def zeroTbl : FreqTable := [(abW, 0)]

def catCatsU : List Char := ['c', 'a', 't', ' ', 'c', 'a', 't', 's']

/-! ### Claim theorems -/

/-- Claim C1 (code bug): on the empty frequency table — whose distance-0/1/2
neighborhoods of any token contain no dictionary word — the Norvig strategy
returns the token unchanged, but the symmetric-delete strategy produces an
empty candidate set (its `or` cascade has no literal-token fallback) and
`max()` raises, modelled by the `none` result of `symCorrectToken`. -/
theorem C1_fallback_invariant_bug :
    norvigCorrectToken [] zzW = some zzW ∧
    (symCandidates [] (createDeletedVariation2DictionaryWords []) zzW).1 = [] ∧
    (symCorrectToken [] (createDeletedVariation2DictionaryWords []) zzW).1 = none := by
  refine ⟨?_, by decide, by decide⟩
  rw [norvigCorrectToken,
    @norvigCandidates_fallback [] zzW rfl (knownIn_nil_tbl _) (knownIn_nil_tbl _),
    maxByFreq_singleton]

/-- Claim C2 (code bug): with the dictionary `{the: 1}`, correcting the token
`zz` mutates the deletion index: `zz` is not a key of the freshly built index,
yet after one `correct_token` query the `defaultdict` holds an empty bucket
under `zz`, so the key set grew. -/
theorem C2_deletion_index_mutated :
    List.lookup zzW (createDeletedVariation2DictionaryWords theTbl) = none ∧
    List.lookup zzW
      (symCorrectToken theTbl (createDeletedVariation2DictionaryWords theTbl) zzW).2 =
      some [] := by
  decide

/-- Claim C3: the Norvig candidates function follows the four-stage cascade:
a known token yields `{token}`; otherwise the distance-1 set intersected with
the dictionary when non-empty; otherwise the distance-2 intersection when
non-empty; otherwise `{token}`. -/
theorem C3_norvig_cascade (tbl : FreqTable) (t : Word) :
    (isKnown tbl t = true → norvigCandidates tbl t = [t]) ∧
    (isKnown tbl t = false → knownIn tbl (oneEditTokenDistances t) ≠ [] →
      norvigCandidates tbl t = knownIn tbl (oneEditTokenDistances t) ∧
      (∀ w, w ∈ norvigCandidates tbl t ↔
        w ∈ oneEditTokenDistances t ∧ isKnown tbl w = true)) ∧
    (isKnown tbl t = false → knownIn tbl (oneEditTokenDistances t) = [] →
      knownIn tbl (twoEditsTokenDistances t) ≠ [] →
      norvigCandidates tbl t = knownIn tbl (twoEditsTokenDistances t) ∧
      (∀ w, w ∈ norvigCandidates tbl t ↔
        w ∈ twoEditsTokenDistances t ∧ isKnown tbl w = true)) ∧
    (isKnown tbl t = false → knownIn tbl (oneEditTokenDistances t) = [] →
      knownIn tbl (twoEditsTokenDistances t) = [] →
      norvigCandidates tbl t = [t]) := by
  refine ⟨fun h => norvigCandidates_known h,
    fun h h1 => ⟨norvigCandidates_unknown1 h h1, ?_⟩,
    fun h h1 h2 => ⟨norvigCandidates_unknown2 h h1 h2, ?_⟩,
    fun h h1 h2 => norvigCandidates_fallback h h1 h2⟩
  · intro w
    rw [norvigCandidates_unknown1 h h1]
    exact mem_knownIn
  · intro w
    rw [norvigCandidates_unknown2 h h1 h2]
    exact mem_knownIn

theorem C3_norvig_cascade_witness :
    norvigCandidates catTbl catW = [catW] ∧ norvigCandidates [] zzW = [zzW] :=
  ⟨(C3_norvig_cascade catTbl catW).1 (by decide),
   (C3_norvig_cascade [] zzW).2.2.2 rfl (knownIn_nil_tbl _) (knownIn_nil_tbl _)⟩

/-- Claim C4: `correct_token` returns a member of the candidate set of maximal
frequency; the first maximum in enumeration order wins ties, a strictly
dominated candidate is never selected, and for both strategies `correct_token`
is exactly `max` over the strategy's candidate set. -/
theorem C4_max_frequency_selection (tbl : FreqTable) (cs : List Word) (w : Word)
    (h : maxByFreq tbl cs = some w) :
    (∃ pre post, cs = pre ++ w :: post ∧
      ∀ x ∈ pre, frequencyOf tbl x < frequencyOf tbl w) ∧
    (∀ x ∈ cs, frequencyOf tbl x ≤ frequencyOf tbl w) ∧
    (∀ b ∈ cs, (∃ a ∈ cs, frequencyOf tbl b < frequencyOf tbl a) → w ≠ b) ∧
    (∀ t, norvigCorrectToken tbl t = maxByFreq tbl (norvigCandidates tbl t)) ∧
    (∀ idx t, symCorrectToken tbl idx t =
      (maxByFreq tbl (symCandidates tbl idx t).1, (symCandidates tbl idx t).2)) := by
  obtain ⟨pre, post, heq, hpre, hall⟩ := maxByFreq_spec h
  refine ⟨⟨pre, post, heq, hpre⟩, hall, ?_, fun t => rfl, fun idx t => ?_⟩
  · rintro b hb ⟨a, ha, hab⟩ rfl
    exact absurd (hall a ha) (not_le_of_lt hab)
  · rw [symCorrectToken]

theorem C4_max_frequency_selection_witness :
    frequencyOf catTbl catsW ≤ frequencyOf catTbl catW :=
  (C4_max_frequency_selection catTbl [catsW, catW] catW (by decide)).2.1
    catsW (by decide)

/-- Claim C5: membership in the Norvig edit-distance-1 generator is exactly a
deletion, an insertion over `_CHARACTERS`, a substitution over `_CHARACTERS`,
or an adjacent transposition at some split boundary `i ∈ [0, n]`. -/
theorem C5_one_edit_generator_complete (t s : Word) :
    s ∈ oneEditTokenDistances t ↔
      ∃ i, i ≤ t.length ∧
        ((t.drop i ≠ [] ∧ s = t.take i ++ (t.drop i).tail) ∨
         (∃ c, c ∈ CHARACTERS ∧ s = t.take i ++ c :: t.drop i) ∨
         (t.drop i ≠ [] ∧ ∃ c, c ∈ CHARACTERS ∧ s = t.take i ++ c :: (t.drop i).tail) ∨
         (∃ a b rest, t.drop i = a :: b :: rest ∧ s = t.take i ++ b :: a :: rest)) := by
  unfold oneEditTokenDistances
  constructor
  · intro h
    rcases List.mem_append.mp h with h | h
    · rcases List.mem_append.mp h with h | h
      · rcases List.mem_append.mp h with h | h
        · obtain ⟨i, hi, c, hc, rfl⟩ := mem_insertedVariations.mp h
          exact ⟨i, hi, Or.inr (Or.inl ⟨c, hc, rfl⟩)⟩
        · obtain ⟨i, hi, hne, rfl⟩ := mem_deletedDistances.mp h
          exact ⟨i, hi, Or.inl ⟨hne, rfl⟩⟩
      · obtain ⟨i, hi, hne, c, hc, rfl⟩ := mem_replacedVariations.mp h
        exact ⟨i, hi, Or.inr (Or.inr (Or.inl ⟨hne, c, hc, rfl⟩))⟩
    · obtain ⟨i, hi, a, b, rest, hd, rfl⟩ := mem_transposedVariations.mp h
      exact ⟨i, hi, Or.inr (Or.inr (Or.inr ⟨a, b, rest, hd, rfl⟩))⟩
  · rintro ⟨i, hi, h⟩
    rcases h with ⟨hne, rfl⟩ | ⟨c, hc, rfl⟩ | ⟨hne, c, hc, rfl⟩ | ⟨a, b, rest, hd, rfl⟩
    · exact List.mem_append.mpr (Or.inl (List.mem_append.mpr (Or.inl
        (List.mem_append.mpr (Or.inr (mem_deletedDistances.mpr ⟨i, hi, hne, rfl⟩))))))
    · exact List.mem_append.mpr (Or.inl (List.mem_append.mpr (Or.inl
        (List.mem_append.mpr (Or.inl (mem_insertedVariations.mpr ⟨i, hi, c, hc, rfl⟩))))))
    · exact List.mem_append.mpr (Or.inl (List.mem_append.mpr (Or.inr
        (mem_replacedVariations.mpr ⟨i, hi, hne, c, hc, rfl⟩))))
    · exact List.mem_append.mpr (Or.inr
        (mem_transposedVariations.mpr ⟨i, hi, a, b, rest, hd, rfl⟩))

theorem C5_one_edit_generator_complete_witness :
    (['a', 'b'] : Word) ∈ oneEditTokenDistances ['a'] :=
  (C5_one_edit_generator_complete ['a'] ['a', 'b']).mpr
    ⟨1, by decide, Or.inr (Or.inl ⟨'b', by decide, by decide⟩)⟩

/-- Claim C6: a word present in the frequency table with a positive count
short-circuits, in both strategies, to the singleton candidate set containing
just that word, and `correct_token` returns it unchanged — regardless of the
frequencies of its near-neighbors and without touching the deletion index. -/
theorem C6_known_word_short_circuit (tbl : FreqTable) (idx : DeletionIndex)
    (w : Word) (h : isKnown tbl w = true) :
    norvigCandidates tbl w = [w] ∧ norvigCorrectToken tbl w = some w ∧
    symCandidates tbl idx w = ([w], idx) ∧ symCorrectToken tbl idx w = (some w, idx) :=
  ⟨norvigCandidates_known h, norvigCorrectToken_known h,
   symCandidates_known idx h, symCorrectToken_known idx h⟩

theorem C6_known_word_short_circuit_witness :
    norvigCorrectToken catTbl catW = some catW ∧
    symCorrectToken catTbl (createDeletedVariation2DictionaryWords catTbl) catW =
      (some catW, createDeletedVariation2DictionaryWords catTbl) :=
  ⟨(C6_known_word_short_circuit catTbl [] catW (by decide)).2.1,
   (C6_known_word_short_circuit catTbl
      (createDeletedVariation2DictionaryWords catTbl) catW (by decide)).2.2.2⟩

/-- Claim C7: every deletion-distance-1 and deletion-distance-2 variant of a
frequency-table word is a key of the deletion index built at construction,
with that word in its bucket. -/
theorem C7_deletion_index_closure (tbl : FreqTable) (w v : Word)
    (hw : w ∈ tbl.map Prod.fst)
    (hv : v ∈ oneEditDeletedVariations w ++ twoEditsDeletedVariations w) :
    ∃ b, List.lookup v (createDeletedVariation2DictionaryWords tbl) = some b ∧
      w ∈ b :=
  deletionIndex_closure hw hv

theorem C7_deletion_index_closure_witness :
    catW ∈ (List.lookup atW (createDeletedVariation2DictionaryWords catTbl)).getD [] := by
  obtain ⟨b, hb, hm⟩ := C7_deletion_index_closure catTbl catW atW (by decide) (by decide)
  rw [hb]
  exact hm

/-- Claim C8: with a dictionary satisfying the spec's data model (non-empty
lowercase separator-free keys, positive counts), `correct` is stable under
repetition: a second application to an already-corrected utterance returns the
same result — for the Norvig strategy unconditionally on its output, and for
the symmetric-delete strategy on every first pass that returns a result. -/
theorem C8_correct_idempotent (tbl : FreqTable) (hwf : WellFormedTable tbl)
    (s : List Char) :
    (∀ u, norvigCorrect tbl s = some u → norvigCorrect tbl u = some u) ∧
    (∀ u idx1,
      symCorrect tbl (createDeletedVariation2DictionaryWords tbl) s = (some u, idx1) →
      symCorrect tbl idx1 u = (some u, idx1)) :=
  ⟨fun _ h => norvigCorrect_stable hwf h, fun _ _ h => symCorrect_stable hwf h⟩

lemma wellFormed_catTbl : WellFormedTable catTbl := by
  intro p hp
  simp only [catTbl, List.mem_cons, List.mem_singleton] at hp
  rcases hp with rfl | rfl | hp
  · exact ⟨by decide, by decide, by decide, by decide⟩
  · exact ⟨by decide, by decide, by decide, by decide⟩
  · simp at hp

theorem C8_correct_idempotent_witness :
    norvigCorrect catTbl catCatsU = some catCatsU ∧
    symCorrect catTbl (createDeletedVariation2DictionaryWords catTbl) catCatsU =
      (some catCatsU, createDeletedVariation2DictionaryWords catTbl) :=
  ⟨(C8_correct_idempotent catTbl wellFormed_catTbl catCatsU).1 catCatsU (by decide),
   (C8_correct_idempotent catTbl wellFormed_catTbl catCatsU).2 catCatsU
     (createDeletedVariation2DictionaryWords catTbl) (by decide)⟩

/-- Claim C9: `frequency_of` is total — 0 for an absent word, the stored count
otherwise — and a word stored with count 0 is indistinguishable from an absent
word: its frequency is 0, it is not "known", and it is excluded from every
`known_in` filter. -/
theorem C9_frequency_total (tbl : FreqTable) (w : Word) :
    (List.lookup w tbl = none → frequencyOf tbl w = 0) ∧
    (∀ v, List.lookup w tbl = some v → v ≠ 0 → frequencyOf tbl w = v) ∧
    (List.lookup w tbl = some 0 →
      frequencyOf tbl w = 0 ∧ isKnown tbl w = false ∧
      ∀ ws, w ∉ knownIn tbl ws) := by
  refine ⟨fun h => by rw [frequencyOf, h], fun v hv hv0 => ?_, fun h => ⟨?_, ?_, ?_⟩⟩
  · rw [frequencyOf, hv]
    simp [hv0]
  · rw [frequencyOf, h]
    simp
  · rw [isKnown, h]
    simp
  · intro ws hmem
    have hk : isKnown tbl w = true := (mem_knownIn.mp hmem).2
    rw [isKnown, h] at hk
    simp at hk

theorem C9_frequency_total_witness :
    frequencyOf zeroTbl abW = 0 ∧ isKnown zeroTbl abW = false ∧
    abW ∉ knownIn zeroTbl [abW] ∧ frequencyOf zeroTbl zzW = 0 := by
  obtain ⟨h1, h2, h3⟩ := (C9_frequency_total zeroTbl abW).2.2 (by decide)
  exact ⟨h1, h2, h3 [abW], (C9_frequency_total zeroTbl zzW).1 (by decide)⟩

/-- Claim C10: correction is insensitive to input casing: lowercasing the
utterance first does not change the output of `correct`, for both strategies
(the utterance is lowercased before tokenization anyway). -/
theorem C10_correct_case_insensitive (tbl : FreqTable) (idx : DeletionIndex)
    (s : List Char) :
    norvigCorrect tbl (lowerStr s) = norvigCorrect tbl s ∧
    symCorrect tbl idx (lowerStr s) = symCorrect tbl idx s := by
  constructor
  · rw [norvigCorrect, lowerStr_idem]
    rw [norvigCorrect]
  · rw [symCorrect, lowerStr_idem]
    rw [symCorrect]
